import Mathlib

/-!
# Policy/value network (network.hpp): shapes, failures and normalisation

A shallow embedding of `network.hpp`.  The five modules of the file
(`ConvBlockImpl`, `ResBlockImpl`, `PolicyHeadImpl`, `ValueHeadImpl`,
`PVNetworkImpl`) are translated statement by statement: constructors become
functions that build the module, `forward` becomes a function from the module and
the input tensor to the result.

The modules are built from primitives of the tensor library, which is not part of
the repository.  The namespace `torch` states the contract of each primitive that
the file calls:

* a tensor is its `sizes` and its entries, read in row-major order;
* an operation that the library rejects (it throws) returns `none`;
* a convolution needs a non-empty four-dimensional input with the configured
  channel count, a non-empty weight, and a kernel that fits into the padded
  input; it returns spatial sizes `h + 2P - K + 1`;
* batch normalisation keeps the sizes; in training mode, the mode of every newly
  constructed module, it rejects an input with at most one value per channel;
* a fully-connected layer needs its input size as the last dimension;
* `+` broadcasts: two sizes are compatible when they are equal or one of them is 1;
* the learned parameters of a layer act on the entries through an arbitrary
  function (`Kernel`), so every statement holds for all parameter values;
* `exp` and `log` are passed in (`MathFns`), so that the definitions stay
  executable; the numerical theorems instantiate them with `Real.exp` and
  `Real.log`.

The contracts are those of the library versions that provide
`torch::nn::BatchNorm`, the class the file uses.

Channel counts, kernel sizes and paddings are natural numbers.  The product
`board_size * board_size` is a product of two `int`s in the source: it has a
defined result only below `2 ^ 31` (`intMul`), and the constructor returns no
network otherwise.  `num_res` is an `int` in the source and an `Int` here: the
schedule `Cs` is taken to have fewer than `2 ^ 31` entries, so that
`Cs.size() - 1` stored in an `int` does not wrap for a non-empty schedule; it is
`-1` for the empty one.
-/

namespace torch

/-- A tensor: its sizes and its entries in row-major order (entry `i` of the
flattened tensor is `data i`; only `i < numel sizes` is meaningful). -/
structure Tensor (α : Type) where
  sizes : List Nat
  data : Nat → α

/-- Number of entries of a tensor with the given sizes. -/
def numel (sizes : List Nat) : Nat := sizes.prod

/-- The exponential and the logarithm used by `softmax` and `log_softmax`. -/
structure MathFns (α : Type) where
  exp : α → α
  log : α → α

/-- The action of a layer's learned parameters (weights, biases, running
statistics) on the entries: from the input sizes and entries to the output
entries.  It is arbitrary: nothing below depends on the parameter values. -/
abbrev Kernel (α : Type) := List Nat → (Nat → α) → Nat → α

/-- A path-indexed store of layer parameters, one `Kernel` per registered
sub-module (the path plays the role of the name given to `register_module`). -/
abbrev Params (α : Type) := List Nat → Kernel α

/-- The parameters of the sub-module registered at position `k`. -/
def Params.sub {α : Type} (θ : Params α) (k : Nat) : Params α := fun p => θ (k :: p)

variable {α : Type}

/-- The function `torch::relu`: elementwise `max(0, x)`; the sizes are unchanged. -/
def relu [LinearOrderedField α] (x : Tensor α) : Tensor α :=
  ⟨x.sizes, fun i => max 0 (x.data i)⟩

/-- The call `x.flatten(1)`: all dimensions after the first are merged into one.  A tensor
with fewer than two dimensions has no dimension 1 and is rejected. -/
def Tensor.flatten1 (x : Tensor α) : Option (Tensor α) :=
  match x.sizes with
  | b :: d :: rest => some ⟨[b, numel (d :: rest)], x.data⟩
  | _ => none

/-- The call `x.view(shape)`: the same entries under new sizes; rejected unless the number
of entries agrees. -/
def Tensor.view (x : Tensor α) (shape : List Nat) : Option (Tensor α) :=
  if numel shape = numel x.sizes then some ⟨shape, x.data⟩ else none

/-- Flat index of the entry that shares all coordinates with entry `i` except the
coordinate along dimension 1, which is `k`; `n` is the size of dimension 1 and
`inner` the number of entries of one slice of the later dimensions. -/
def dim1Index (n inner i k : Nat) : Nat :=
  (i / (n * inner)) * (n * inner) + k * inner + i % inner

/-- The call `x.softmax(1)`: each entry is its exponential divided by the sum of the
exponentials along dimension 1. -/
def Tensor.softmax1 [LinearOrderedField α] (m : MathFns α) (x : Tensor α) :
    Option (Tensor α) :=
  match x.sizes with
  | _ :: n :: rest =>
    some ⟨x.sizes, fun i =>
      m.exp (x.data i) /
        ∑ k ∈ Finset.range n, m.exp (x.data (dim1Index n (numel rest) i k))⟩
  | _ => none

/-- The call `x.log_softmax(1)`: each entry minus the logarithm of the sum of the
exponentials along dimension 1. -/
def Tensor.log_softmax1 [LinearOrderedField α] (m : MathFns α) (x : Tensor α) :
    Option (Tensor α) :=
  match x.sizes with
  | _ :: n :: rest =>
    some ⟨x.sizes, fun i =>
      x.data i -
        m.log (∑ k ∈ Finset.range n, m.exp (x.data (dim1Index n (numel rest) i k)))⟩
  | _ => none

/-- The expression `x * 2 - 1` with scalars: elementwise. -/
def Tensor.mul2sub1 [LinearOrderedField α] (x : Tensor α) : Tensor α :=
  ⟨x.sizes, fun i => x.data i * 2 - 1⟩

/-- Broadcasting of two size lists given last dimension first: two sizes are
compatible when they are equal or one of them is 1; a missing dimension counts
as 1. -/
def broadcastRev : List Nat → List Nat → Option (List Nat)
  | [], ys => some ys
  | x :: xs, [] => some (x :: xs)
  | x :: xs, y :: ys =>
    if x = y then (broadcastRev xs ys).map (fun r => x :: r)
    else if x = 1 then (broadcastRev xs ys).map (fun r => y :: r)
    else if y = 1 then (broadcastRev xs ys).map (fun r => x :: r)
    else none

/-- The sizes of the result of an elementwise binary operation, or `none` when
the operands cannot be broadcast together. -/
def broadcastSizes (a b : List Nat) : Option (List Nat) :=
  (broadcastRev a.reverse b.reverse).map List.reverse

/-- Coordinates of the flat index `i` in a row-major tensor of the given sizes. -/
def unravel : List Nat → Nat → List Nat
  | [], _ => []
  | d :: rest, i => (i / numel rest) % d :: unravel rest (i % numel rest)

/-- Flat index of the given coordinates in a row-major tensor. -/
def ravel : List Nat → List Nat → Nat
  | _ :: rest, k :: ks => k * numel rest + ravel rest ks
  | _, _ => 0

/-- Flat index, in an operand of sizes `src`, of the entry that is broadcast to
entry `i` of the result of sizes `out`. -/
def expandIndex (src out : List Nat) (i : Nat) : Nat :=
  ravel src
    (List.zipWith (fun d k => if d = 1 then 0 else k) src
      ((unravel out i).drop (out.length - src.length)))

/-- The sum `x + y` of tensors, with broadcasting. -/
def Tensor.add [LinearOrderedField α] (x y : Tensor α) : Option (Tensor α) :=
  (broadcastSizes x.sizes y.sizes).map fun s =>
    ⟨s, fun i => x.data (expandIndex x.sizes s i) + y.data (expandIndex y.sizes s i)⟩

/-- The module `torch::nn::Conv2d` with stride 1: the options and the learned parameters. -/
structure Conv2d (α : Type) where
  in_channels : Nat
  out_channels : Nat
  kernel_size : Nat
  padding : Nat
  weight : Kernel α

/-- Constructor `Conv2d(Conv2dOptions(in, out, K).padding(P))`. -/
def Conv2d.new (inp out K P : Nat) (w : Kernel α) : Conv2d α := ⟨inp, out, K, P, w⟩

/-- Forward pass of a convolution: the input must have four dimensions
(batch, channels, height, width), its channel count must be `in_channels`, neither
the input nor the weight may be empty (the library versions that provide
`torch::nn::BatchNorm` reject an empty tensor here), and the kernel must fit into
the padded input.  The output has `out_channels` channels and spatial sizes
`height + 2P - K + 1`, `width + 2P - K + 1`. -/
def Conv2d.forward (c : Conv2d α) (x : Tensor α) : Option (Tensor α) :=
  match x.sizes with
  | [b, ch, h, w] =>
    if ch = c.in_channels ∧ (1 ≤ b ∧ 1 ≤ ch ∧ 1 ≤ h ∧ 1 ≤ w) ∧
        (1 ≤ c.out_channels ∧ 1 ≤ c.kernel_size) ∧
        c.kernel_size ≤ h + 2 * c.padding ∧ c.kernel_size ≤ w + 2 * c.padding then
      some ⟨[b, c.out_channels, h + 2 * c.padding - c.kernel_size + 1,
              w + 2 * c.padding - c.kernel_size + 1], c.weight x.sizes x.data⟩
    else none
  | _ => none

/-- The module `torch::nn::BatchNorm`: the number of features, the mode of the module
(`is_training()`, switched by `train()` and `eval()`), and the learned
parameters, whose action depends on the mode (batch statistics in training mode,
running statistics in evaluation mode). -/
structure BatchNorm (α : Type) where
  features : Nat
  is_training : Bool
  weight : Bool → Kernel α

/-- Constructor `BatchNorm(BatchNormOptions(features).momentum(0.9))`; a new module is in
training mode. -/
def BatchNorm.new (features : Nat) (w : Bool → Kernel α) : BatchNorm α :=
  ⟨features, true, w⟩

/-- The call `Module::train(mode)` on a batch-norm layer. -/
def BatchNorm.train (mode : Bool) (b : BatchNorm α) : BatchNorm α := { b with is_training := mode }

/-- Forward pass of batch normalisation: dimension 1 of the input must have
`features` entries; in training mode the library also requires more than one
value per channel (`input.numel() / input.size(1) > 1`, otherwise it throws
"BatchNorm expected more than 1 value per channel when training!").  The sizes
are unchanged. -/
def BatchNorm.forward (b : BatchNorm α) (x : Tensor α) : Option (Tensor α) :=
  match x.sizes with
  | _ :: ch :: _ =>
    if ch = b.features ∧ (b.is_training = true → 1 < numel x.sizes / ch) then
      some ⟨x.sizes, b.weight b.is_training x.sizes x.data⟩
    else none
  | _ => none

/-- The module `torch::nn::Linear`: a fully-connected layer. -/
structure Linear (α : Type) where
  in_features : Nat
  out_features : Nat
  weight : Kernel α

/-- Constructor `Linear(in_features, out_features)`. -/
def Linear.new (inp out : Nat) (w : Kernel α) : Linear α := ⟨inp, out, w⟩

/-- Forward pass of a fully-connected layer: the last dimension of the input must
have `in_features` entries and is replaced by `out_features`. -/
def Linear.forward (l : Linear α) (x : Tensor α) : Option (Tensor α) :=
  match x.sizes.getLast? with
  | some d =>
    if d = l.in_features then
      some ⟨x.sizes.dropLast ++ [l.out_features], l.weight x.sizes x.data⟩
    else none
  | none => none

end torch

open torch

variable {α : Type}

/-! ## ConvBlock -/

/-- The module `struct ConvBlockImpl`: a convolution followed by batch normalisation. -/
structure ConvBlockImpl (α : Type) where
  conv : Conv2d α
  batch_norm : BatchNorm α

/-- Constructor `ConvBlockImpl(int in, int out, int K, int P)`. -/
def ConvBlockImpl.new (inp out K P : Nat) (θ : Params α) : ConvBlockImpl α :=
  { conv := Conv2d.new inp out K P (θ [0])
    batch_norm := BatchNorm.new out (fun t => θ [1, t.toNat]) }

/-- The call `Module::train(mode)` on a ConvBlock: it reaches every registered sub-module. -/
def ConvBlockImpl.train (mode : Bool) (m : ConvBlockImpl α) : ConvBlockImpl α :=
  { m with batch_norm := m.batch_norm.train mode }

/-- The method `ConvBlockImpl::forward`: `relu(batch_norm(conv(x)))`. -/
def ConvBlockImpl.forward [LinearOrderedField α] (m : ConvBlockImpl α) (x : Tensor α) :
    Option (Tensor α) := do
  let y ← m.conv.forward x
  let z ← m.batch_norm.forward y
  pure (relu z)

/-! ## ResBlock -/

/-- The module `struct ResBlockImpl`: two convolutions, each with its batch
normalisation. -/
structure ResBlockImpl (α : Type) where
  conv1 : Conv2d α
  conv2 : Conv2d α
  batch_norm1 : BatchNorm α
  batch_norm2 : BatchNorm α

/-- Constructor `ResBlockImpl(int in, int out, int K, int P)`: `conv1` maps `in`
to `out` channels, `conv2` maps `out` to `out`; nothing compares `in` with `out`. -/
def ResBlockImpl.new (inp out K P : Nat) (θ : Params α) : ResBlockImpl α :=
  { conv1 := Conv2d.new inp out K P (θ [0])
    conv2 := Conv2d.new out out K P (θ [1])
    batch_norm1 := BatchNorm.new out (fun t => θ [2, t.toNat])
    batch_norm2 := BatchNorm.new out (fun t => θ [3, t.toNat]) }

/-- The call `Module::train(mode)` on a ResBlock. -/
def ResBlockImpl.train (mode : Bool) (m : ResBlockImpl α) : ResBlockImpl α :=
  { m with batch_norm1 := m.batch_norm1.train mode
           batch_norm2 := m.batch_norm2.train mode }

/-- The method `ResBlockImpl::forward`:
`x = relu(batch_norm1(conv1(input))); x = batch_norm2(conv2(x));
x = relu(x + input); return x;`. -/
def ResBlockImpl.forward [LinearOrderedField α] (m : ResBlockImpl α) (input : Tensor α) :
    Option (Tensor α) := do
  let a ← m.conv1.forward input
  let b ← m.batch_norm1.forward a
  let x := relu b
  let c ← m.conv2.forward x
  let x ← m.batch_norm2.forward c
  let s ← x.add input
  pure (relu s)

/-! ## PolicyHead -/

/-- The module `struct PolicyHeadImpl`: a 1x1 convolution and the flag
`training` that selects the normalisation. -/
structure PolicyHeadImpl (α : Type) where
  conv : Conv2d α
  training : Bool

/-- Constructor `PolicyHeadImpl(int C, int out, bool train)`: the convolution is
`Conv2d(C, out, 1)` (kernel size 1, no padding). -/
def PolicyHeadImpl.new (C out : Nat) (train : Bool) (θ : Params α) : PolicyHeadImpl α :=
  { conv := Conv2d.new C out 1 0 (θ [0])
    training := train }

/-- The method `PolicyHeadImpl::forward`: the convolution, then `log_softmax`
(flag set) or `softmax` (flag clear) over the flattened tensor, viewed with the
sizes of the convolution's result. -/
def PolicyHeadImpl.forward [LinearOrderedField α] (fns : MathFns α) (m : PolicyHeadImpl α)
    (input : Tensor α) : Option (Tensor α) := do
  let x ← m.conv.forward input
  let shape := x.sizes
  if m.training then
    let f ← x.flatten1
    let l ← f.log_softmax1 fns
    l.view shape
  else
    let f ← x.flatten1
    let l ← f.softmax1 fns
    l.view shape

/-! ## ValueHead -/

/-- The module `struct ValueHeadImpl`: a 1x1 convolution to one channel, batch
normalisation and two fully-connected layers. -/
structure ValueHeadImpl (α : Type) where
  value_conv : Conv2d α
  value_bn : BatchNorm α
  value_fc1 : Linear α
  value_fc2 : Linear α

/-- Constructor `ValueHeadImpl(int C, int size_2)`: `Conv2d(C, 1, 1)`,
`BatchNorm(1)`, `Linear(size_2, 64)`, `Linear(64, 2)`; `size_2` is compared with
nothing. -/
def ValueHeadImpl.new (C size_2 : Nat) (θ : Params α) : ValueHeadImpl α :=
  { value_conv := Conv2d.new C 1 1 0 (θ [0])
    value_bn := BatchNorm.new 1 (fun t => θ [1, t.toNat])
    value_fc1 := Linear.new size_2 64 (θ [2])
    value_fc2 := Linear.new 64 2 (θ [3]) }

/-- The call `Module::train(mode)` on a ValueHead. -/
def ValueHeadImpl.train (mode : Bool) (m : ValueHeadImpl α) : ValueHeadImpl α :=
  { m with value_bn := m.value_bn.train mode }

/-- The method `ValueHeadImpl::forward`:
`x = relu(value_bn(value_conv(input))); x = x.flatten(1);
x = relu(value_fc1(x)); x = value_fc2(x); x = softmax(x, 1) * 2 - 1;`. -/
def ValueHeadImpl.forward [LinearOrderedField α] (fns : MathFns α) (m : ValueHeadImpl α)
    (input : Tensor α) : Option (Tensor α) := do
  let a ← m.value_conv.forward input
  let b ← m.value_bn.forward a
  let x := relu b
  let x ← x.flatten1
  let c ← m.value_fc1.forward x
  let x := relu c
  let x ← m.value_fc2.forward x
  let s ← x.softmax1 fns
  pure s.mul2sub1

/-! ## PVNetwork -/

/-- The module `struct PVNetworkImpl`. -/
structure PVNetworkImpl (α : Type) where
  num_res : Int
  CBlock : ConvBlockImpl α
  RBlocks : List (ResBlockImpl α)
  PHead : PolicyHeadImpl α
  VHead : ValueHeadImpl α

/-- The read `Cs[i]` of a `std::vector<int>` with an `int` index; a read outside
the vector has no defined result and is `none`. -/
def vectorAt (Cs : List Nat) (i : Int) : Option Nat :=
  if 0 ≤ i then Cs[i.toNat]? else none

/-- The member initialiser `num_res(Cs.size() - 1)`. -/
def PVNetworkImpl.numRes (Cs : List Nat) : Int := (Cs.length : Int) - 1

/-- The body of the constructor,
`for (int i = 0; i < num_res; i++) RBlocks.emplace_back(ResBlock(Cs[i], Cs[i + 1], K, P))`,
from index `i` with `n` iterations left. -/
def PVNetworkImpl.makeRBlocks (Cs : List Nat) (K P : Nat) (θ : Params α) :
    Nat → Nat → Option (List (ResBlockImpl α))
  | _, 0 => some []
  | i, n + 1 => do
    let C_in ← vectorAt Cs (i : Int)
    let C_out ← vectorAt Cs ((i : Int) + 1)
    let rest ← PVNetworkImpl.makeRBlocks Cs K P θ (i + 1) n
    pure (ResBlockImpl.new C_in C_out K P (θ.sub (3 + i)) :: rest)

/-- The product `a * b` of two `int`s that are not negative.  The product of two
`int`s that does not fit into an `int` (32 bits, so at most `2 ^ 31 - 1`) is a
signed overflow: it has no defined result and is `none`. -/
def intMul (a b : Nat) : Option Nat :=
  if a * b < 2 ^ 31 then some (a * b) else none

/-- Constructor `PVNetworkImpl(int board_size, const std::vector<int>& Cs, int in,
int out, bool training = false, int K = 3, int P = 1)`.  The members are
initialised in the order of their declaration: `num_res`, `CBlock` (reads
`Cs[0]`), `PHead` and `VHead` (both read `Cs[num_res - 1]`; `VHead` also computes
the `int` product `board_size*board_size`); then the body fills `RBlocks`. -/
def PVNetworkImpl.new (board_size : Nat) (Cs : List Nat) (inp out : Nat) (training : Bool)
    (K P : Nat) (θ : Params α) : Option (PVNetworkImpl α) := do
  let num_res := PVNetworkImpl.numRes Cs
  let c0 ← vectorAt Cs 0
  let cP ← vectorAt Cs (num_res - 1)
  let cV ← vectorAt Cs (num_res - 1)
  let size_2 ← intMul board_size board_size
  let blocks ← PVNetworkImpl.makeRBlocks Cs K P θ 0 num_res.toNat
  pure
    { num_res := num_res
      CBlock := ConvBlockImpl.new inp c0 K P (θ.sub 0)
      RBlocks := blocks
      PHead := PolicyHeadImpl.new cP out training (θ.sub 1)
      VHead := ValueHeadImpl.new cV size_2 (θ.sub 2) }

/-- The call `Module::train(mode)` on the network: every registered sub-module
is switched. -/
def PVNetworkImpl.train (mode : Bool) (m : PVNetworkImpl α) : PVNetworkImpl α :=
  { m with CBlock := m.CBlock.train mode
           RBlocks := m.RBlocks.map (ResBlockImpl.train mode)
           VHead := m.VHead.train mode }

/-- The loop `for (int i = 0; i < num_res; i++) x = RBlocks[i](x);` from index `i`
with `n` iterations left. -/
def PVNetworkImpl.applyRBlocks [LinearOrderedField α] (m : PVNetworkImpl α) :
    Nat → Nat → Tensor α → Option (Tensor α)
  | _, 0, x => some x
  | i, n + 1, x => do
    let rb ← m.RBlocks[i]?
    let y ← rb.forward x
    PVNetworkImpl.applyRBlocks m (i + 1) n y

/-- The method `PVNetworkImpl::forward`: the stem, the residual blocks in index
order, then both heads on the same tensor. -/
def PVNetworkImpl.forward [LinearOrderedField α] (fns : MathFns α) (m : PVNetworkImpl α)
    (input : Tensor α) : Option (Tensor α × Tensor α) := do
  let x ← m.CBlock.forward input
  let x ← PVNetworkImpl.applyRBlocks m 0 m.num_res.toNat x
  let p ← m.PHead.forward fns x
  let v ← m.VHead.forward fns x
  pure (p, v)

/-! ## Definitions used in the statements -/

/-- The denominator of `softmax(1)` and `log_softmax(1)` at entry `i` of a tensor
with `n` entries along dimension 1 and no later dimension: the sum of the
exponentials over the row of `i`. -/
def rowSum [LinearOrderedField α] (fns : MathFns α) (n : Nat) (z : Nat → α) (i : Nat) : α :=
  ∑ k ∈ Finset.range n, fns.exp (z (dim1Index n 1 i k))

/-- A call of `PolicyHeadImpl::forward` as a transition of the module: the module
after the call and the result.  The method assigns to its local `x` only, so the
members `conv` and `training` are the ones before the call. -/
def PolicyHeadImpl.call [LinearOrderedField α] (fns : MathFns α) (m : PolicyHeadImpl α)
    (input : Tensor α) : PolicyHeadImpl α × Option (Tensor α) :=
  (m, m.forward fns input)

/-- Real parameters whose action sends every entry to zero. -/
def zeroParamsR : Params ℝ := fun _ _ _ _ => 0

/-- The real tensor of the given sizes with all entries zero. -/
def zerosR (sizes : List Nat) : Tensor ℝ := ⟨sizes, fun _ => 0⟩

/-- The real tensor of the given sizes with all entries equal to `v`. -/
def constR (sizes : List Nat) (v : ℝ) : Tensor ℝ := ⟨sizes, fun _ => v⟩

/-! ## Contracts of the primitives -/

theorem numel_four (b c h w : Nat) : numel [b, c, h, w] = b * c * h * w := by
  simp [numel, Nat.mul_assoc]

theorem numel_four_div (b c h w : Nat) (hc : 0 < c) : numel [b, c, h, w] / c = b * h * w := by
  rw [numel_four]
  have : b * c * h * w = c * (b * h * w) := by ring
  rw [this, Nat.mul_div_cancel_left _ hc]

theorem Conv2d_forward_some (c : Conv2d α) (x : Tensor α) (b h w : Nat)
    (hx : x.sizes = [b, c.in_channels, h, w])
    (hne : 1 ≤ b ∧ 1 ≤ c.in_channels ∧ 1 ≤ h ∧ 1 ≤ w)
    (hwt : 1 ≤ c.out_channels ∧ 1 ≤ c.kernel_size)
    (hh : c.kernel_size ≤ h + 2 * c.padding) (hw : c.kernel_size ≤ w + 2 * c.padding) :
    c.forward x = some ⟨[b, c.out_channels, h + 2 * c.padding - c.kernel_size + 1,
      w + 2 * c.padding - c.kernel_size + 1], c.weight x.sizes x.data⟩ := by
  simp only [Conv2d.forward, hx]
  rw [if_pos ⟨trivial, hne, hwt, hh, hw⟩]

theorem Conv2d_forward_same (c : Conv2d α) (x : Tensor α) (b h w : Nat)
    (hx : x.sizes = [b, c.in_channels, h, w]) (hK : c.kernel_size = 2 * c.padding + 1)
    (hb : 1 ≤ b) (hi : 1 ≤ c.in_channels) (ho : 1 ≤ c.out_channels)
    (hh : 1 ≤ h) (hw : 1 ≤ w) :
    c.forward x = some ⟨[b, c.out_channels, h, w], c.weight x.sizes x.data⟩ := by
  rw [Conv2d_forward_some c x b h w hx ⟨hb, hi, hh, hw⟩ ⟨ho, by omega⟩ (by omega) (by omega)]
  have h1 : h + 2 * c.padding - c.kernel_size + 1 = h := by omega
  have h2 : w + 2 * c.padding - c.kernel_size + 1 = w := by omega
  rw [h1, h2]

/-- A convolution returns a result exactly on non-empty four-dimensional inputs
with the right channel count into which the non-empty kernel fits. -/
theorem Conv2d_forward_eq_some_iff (c : Conv2d α) (x y : Tensor α) :
    c.forward x = some y ↔
      ∃ b h w, x.sizes = [b, c.in_channels, h, w] ∧
        (1 ≤ b ∧ 1 ≤ c.in_channels ∧ 1 ≤ h ∧ 1 ≤ w) ∧
        (1 ≤ c.out_channels ∧ 1 ≤ c.kernel_size) ∧
        c.kernel_size ≤ h + 2 * c.padding ∧ c.kernel_size ≤ w + 2 * c.padding ∧
        y = ⟨[b, c.out_channels, h + 2 * c.padding - c.kernel_size + 1,
              w + 2 * c.padding - c.kernel_size + 1], c.weight x.sizes x.data⟩ := by
  constructor
  · intro h
    unfold Conv2d.forward at h
    split at h
    · rename_i b ch hh ww hs
      split at h
      · rename_i hc
        obtain ⟨h1, h2, h3, h4, h5⟩ := hc
        refine ⟨b, hh, ww, ?_, ?_, h3, h4, h5, ?_⟩
        · rw [hs, h1]
        · rw [← h1]; exact h2
        · simpa [hs] using (Option.some.inj h).symm
      · cases h
    · cases h
  · rintro ⟨b, h, w, hx, h1, h2, h3, h4, rfl⟩
    exact Conv2d_forward_some c x b h w hx h1 h2 h3 h4

theorem BatchNorm_forward_some (bn : BatchNorm α) (x : Tensor α) (b h w : Nat)
    (hx : x.sizes = [b, bn.features, h, w])
    (hm : bn.is_training = false ∨ (0 < bn.features ∧ 1 < b * h * w)) :
    bn.forward x = some ⟨[b, bn.features, h, w], bn.weight bn.is_training x.sizes x.data⟩ := by
  have hc : bn.is_training = true → 1 < numel [b, bn.features, h, w] / bn.features := by
    intro ht
    rcases hm with hm | ⟨h0, h1⟩
    · simp [hm] at ht
    · rw [numel_four_div _ _ _ _ h0]; exact h1
  simp only [BatchNorm.forward, hx]
  rw [if_pos ⟨trivial, hc⟩]

/-- Batch normalisation never changes the sizes. -/
theorem BatchNorm_forward_sizes (bn : BatchNorm α) (x y : Tensor α)
    (h : bn.forward x = some y) : y.sizes = x.sizes := by
  unfold BatchNorm.forward at h
  split at h
  · split at h
    · rw [← Option.some.inj h]
    · cases h
  · cases h

/-- In training mode batch normalisation rejects an input with at most one
value per channel. -/
theorem BatchNorm_forward_training_none (bn : BatchNorm α) (x : Tensor α) (b c h w : Nat)
    (hx : x.sizes = [b, c, h, w]) (ht : bn.is_training = true) (hn : b * h * w ≤ 1) :
    bn.forward x = none := by
  simp only [BatchNorm.forward, hx]
  rw [if_neg]
  rintro ⟨-, h2⟩
  have := h2 ht
  rcases Nat.eq_zero_or_pos c with h0 | h0
  · subst h0; simp at this
  · rw [numel_four_div _ _ _ _ h0] at this; omega

theorem Conv2d_forward_same_sizes (c : Conv2d α) (x : Tensor α) (b h w : Nat)
    (hx : x.sizes = [b, c.in_channels, h, w]) (hK : c.kernel_size = 2 * c.padding + 1)
    (hb : 1 ≤ b) (hi : 1 ≤ c.in_channels) (ho : 1 ≤ c.out_channels)
    (hh : 1 ≤ h) (hw : 1 ≤ w) :
    ∃ y, c.forward x = some y ∧ y.sizes = [b, c.out_channels, h, w] :=
  ⟨_, Conv2d_forward_same c x b h w hx hK hb hi ho hh hw, rfl⟩

theorem BatchNorm_forward_ok (bn : BatchNorm α) (x : Tensor α) (b h w : Nat)
    (hx : x.sizes = [b, bn.features, h, w])
    (hm : bn.is_training = false ∨ (0 < bn.features ∧ 1 < b * h * w)) :
    ∃ y, bn.forward x = some y ∧ y.sizes = [b, bn.features, h, w] :=
  ⟨_, BatchNorm_forward_some bn x b h w hx hm, rfl⟩

/-- Linear layers return a result exactly when the last size is `in_features`. -/
theorem Linear_forward_two (l : Linear α) (x : Tensor α) (b n : Nat) (hx : x.sizes = [b, n]) :
    l.forward x = if n = l.in_features then
      some ⟨[b, l.out_features], l.weight x.sizes x.data⟩ else none := by
  simp [Linear.forward, hx]

theorem broadcastRev_self (l : List Nat) : broadcastRev l l = some l := by
  induction l with
  | nil => rfl
  | cons a l ih => simp [broadcastRev, ih]

theorem broadcastSizes_self (l : List Nat) : broadcastSizes l l = some l := by
  simp [broadcastSizes, broadcastRev_self]

/-- Two four-dimensional tensors whose channel counts differ, neither being 1,
cannot be broadcast together. -/
theorem broadcastSizes_channels_none (b c h w b2 c2 k2 w2 : Nat)
    (hne : c ≠ c2) (hc1 : c ≠ 1) (hc2 : c2 ≠ 1) :
    broadcastSizes [b, c, h, w] [b2, c2, k2, w2] = none := by
  have hc : ∀ r1 r2, broadcastRev (c :: r1) (c2 :: r2) = none := by
    intro r1 r2
    simp [broadcastRev, hne, hc1, hc2]
  have hcons : ∀ (x y : Nat) (xs ys : List Nat), broadcastRev xs ys = none →
      broadcastRev (x :: xs) (y :: ys) = none := by
    intro x y xs ys hr
    simp only [broadcastRev, hr, Option.map_none']
    split_ifs <;> rfl
  simp only [broadcastSizes, List.reverse_cons, List.reverse_nil, List.nil_append,
    List.cons_append, List.singleton_append]
  rw [hcons _ _ _ _ (hcons _ _ _ _ (hc _ _))]
  rfl

section Blocks
variable [LinearOrderedField α]

theorem relu_sizes (x : Tensor α) : (relu x).sizes = x.sizes := rfl

theorem Tensor_add_same_sizes (x y : Tensor α) (h : x.sizes = y.sizes) :
    ∃ s, x.add y = some s ∧ s.sizes = y.sizes := by
  simp [Tensor.add, h, broadcastSizes_self]

/-- A ConvBlock whose kernel size is `2P + 1` keeps the spatial sizes of a
non-empty feature map. -/
theorem ConvBlockImpl_forward_same (m : ConvBlockImpl α) (x : Tensor α) (b h w : Nat)
    (hf : m.batch_norm.features = m.conv.out_channels)
    (hK : m.conv.kernel_size = 2 * m.conv.padding + 1)
    (hx : x.sizes = [b, m.conv.in_channels, h, w])
    (hb : 1 ≤ b) (hi : 1 ≤ m.conv.in_channels) (ho : 1 ≤ m.conv.out_channels)
    (hh : 1 ≤ h) (hw : 1 ≤ w)
    (hm : m.batch_norm.is_training = false ∨ 1 < b * h * w) :
    ∃ y, m.forward x = some y ∧ y.sizes = [b, m.conv.out_channels, h, w] := by
  obtain ⟨a, ha, has⟩ := Conv2d_forward_same_sizes m.conv x b h w hx hK hb hi ho hh hw
  obtain ⟨c, hc, hcs⟩ := BatchNorm_forward_ok m.batch_norm a b h w (by rw [has, hf])
    (by rw [hf]; exact hm.imp id (fun h1 => ⟨ho, h1⟩))
  refine ⟨relu c, ?_, ?_⟩
  · simp [ConvBlockImpl.forward, ha, hc]
  · rw [relu_sizes, hcs, hf]

/-- A ResBlock with equal widths and kernel size `2P + 1` keeps the sizes of a
non-empty feature map. -/
theorem ResBlockImpl_forward_same (m : ResBlockImpl α) (x : Tensor α) (C b h w : Nat)
    (hi1 : m.conv1.in_channels = C) (ho1 : m.conv1.out_channels = C)
    (hi2 : m.conv2.in_channels = C) (ho2 : m.conv2.out_channels = C)
    (hf1 : m.batch_norm1.features = C) (hf2 : m.batch_norm2.features = C)
    (hK1 : m.conv1.kernel_size = 2 * m.conv1.padding + 1)
    (hK2 : m.conv2.kernel_size = 2 * m.conv2.padding + 1)
    (hx : x.sizes = [b, C, h, w]) (hb : 1 ≤ b) (hC : 1 ≤ C) (hh : 1 ≤ h) (hw : 1 ≤ w)
    (hm1 : m.batch_norm1.is_training = false ∨ 1 < b * h * w)
    (hm2 : m.batch_norm2.is_training = false ∨ 1 < b * h * w) :
    ∃ y, m.forward x = some y ∧ y.sizes = [b, C, h, w] := by
  obtain ⟨a, ha, has⟩ := Conv2d_forward_same_sizes m.conv1 x b h w (by rw [hi1]; exact hx)
    hK1 hb (by rw [hi1]; exact hC) (by rw [ho1]; exact hC) hh hw
  obtain ⟨c, hc, hcs⟩ := BatchNorm_forward_ok m.batch_norm1 a b h w (by rw [has, ho1, hf1])
    (by rw [hf1]; exact hm1.imp id (fun h1 => ⟨hC, h1⟩))
  obtain ⟨d, hd, hds⟩ := Conv2d_forward_same_sizes m.conv2 (relu c) b h w
    (by rw [relu_sizes, hcs, hf1, hi2]) hK2 hb (by rw [hi2]; exact hC) (by rw [ho2]; exact hC)
    hh hw
  obtain ⟨e, he, hes⟩ := BatchNorm_forward_ok m.batch_norm2 d b h w (by rw [hds, ho2, hf2])
    (by rw [hf2]; exact hm2.imp id (fun h1 => ⟨hC, h1⟩))
  obtain ⟨s, hs, hss⟩ := Tensor_add_same_sizes e x (by rw [hes, hf2, hx])
  refine ⟨relu s, ?_, ?_⟩
  · simp [ResBlockImpl.forward, ha, hc, hd, he, hs]
  · rw [relu_sizes, hss, hx]

/-- The residual add rejects operands whose channel counts differ, neither
being 1; so does the block. -/
theorem ResBlockImpl_forward_none (m : ResBlockImpl α) (x : Tensor α)
    (hne : m.conv1.in_channels ≠ m.conv2.out_channels)
    (h1 : m.conv1.in_channels ≠ 1) (h2 : m.conv2.out_channels ≠ 1) :
    m.forward x = none := by
  rw [Option.eq_none_iff_forall_not_mem]
  intro y hy
  simp only [ResBlockImpl.forward, Option.bind_eq_bind, Option.mem_def,
    Option.bind_eq_some, Option.pure_def, Option.some.injEq] at hy
  obtain ⟨a, ha, b, _, c, hc, d, hd, s, hs, _⟩ := hy
  obtain ⟨b1, k1, w1, hx, -⟩ := (Conv2d_forward_eq_some_iff _ _ _).1 ha
  obtain ⟨b2, k2, w2, -, -, -, -, -, hcs⟩ := (Conv2d_forward_eq_some_iff _ _ _).1 hc
  have hds := BatchNorm_forward_sizes _ _ _ hd
  rw [hcs] at hds
  simp only at hds
  have hb := broadcastSizes_channels_none b2 m.conv2.out_channels
    (k2 + 2 * m.conv2.padding - m.conv2.kernel_size + 1)
    (w2 + 2 * m.conv2.padding - m.conv2.kernel_size + 1) b1 m.conv1.in_channels k1 w1
    (Ne.symm hne) h2 h1
  simp [Tensor.add, hds, hx, hb] at hs

end Blocks

/-! ## Normalisation along dimension 1 -/

theorem dim1Index_row (n b j k : Nat) (hj : j < n) : dim1Index n 1 (b * n + j) k = b * n + k := by
  have hn : 0 < n := Nat.lt_of_le_of_lt (Nat.zero_le _) hj
  have hd : (b * n + j) / n = b := by
    rw [Nat.add_comm, Nat.add_mul_div_right j b hn, Nat.div_eq_of_lt hj, Nat.zero_add]
  simp [dim1Index, Nat.mod_one, hd]

theorem Tensor_flatten1_four (x : Tensor α) (b c k w : Nat) (hx : x.sizes = [b, c, k, w]) :
    x.flatten1 = some ⟨[b, numel [c, k, w]], x.data⟩ := by
  simp [Tensor.flatten1, hx]

theorem Tensor_view_flat (d : Nat → α) (b c k w : Nat) :
    (Tensor.mk [b, numel [c, k, w]] d).view [b, c, k, w] = some ⟨[b, c, k, w], d⟩ := by
  simp [Tensor.view, numel]

section Heads
variable [LinearOrderedField α]

theorem rowSum_row (fns : MathFns α) (n : Nat) (z : Nat → α) (b j : Nat) (hj : j < n) :
    rowSum fns n z (b * n + j) = ∑ k ∈ Finset.range n, fns.exp (z (b * n + k)) := by
  unfold rowSum
  apply Finset.sum_congr rfl
  intro k _
  rw [dim1Index_row n b j k hj]

theorem rowSum_pos (fns : MathFns α) (hpos : ∀ t, 0 < fns.exp t) (n : Nat) (z : Nat → α)
    (i : Nat) (hn : 0 < n) : 0 < rowSum fns n z i := by
  unfold rowSum
  apply Finset.sum_pos
  · intro k _; exact hpos _
  · exact ⟨0, Finset.mem_range.2 hn⟩

theorem rowSum_nonneg (fns : MathFns α) (hpos : ∀ t, 0 < fns.exp t) (n : Nat) (z : Nat → α)
    (i : Nat) : 0 ≤ rowSum fns n z i := by
  unfold rowSum
  apply Finset.sum_nonneg
  intro k _; exact le_of_lt (hpos _)

/-- Each row of a softmax over a non-empty axis sums to one. -/
theorem softmax_row_sum (fns : MathFns α) (hpos : ∀ t, 0 < fns.exp t) (n : Nat) (z : Nat → α)
    (b : Nat) (hn : 0 < n) :
    ∑ j ∈ Finset.range n, fns.exp (z (b * n + j)) / rowSum fns n z (b * n + j) = 1 := by
  have hS : ∀ j ∈ Finset.range n,
      fns.exp (z (b * n + j)) / rowSum fns n z (b * n + j) =
        fns.exp (z (b * n + j)) / ∑ k ∈ Finset.range n, fns.exp (z (b * n + k)) := by
    intro j hj
    rw [rowSum_row fns n z b j (Finset.mem_range.1 hj)]
  rw [Finset.sum_congr rfl hS, ← Finset.sum_div]
  apply div_self
  apply ne_of_gt
  apply Finset.sum_pos
  · intro k _; exact hpos _
  · exact ⟨0, Finset.mem_range.2 hn⟩

theorem Tensor_softmax1_two (fns : MathFns α) (x : Tensor α) (b n : Nat)
    (hx : x.sizes = [b, n]) :
    x.softmax1 fns = some ⟨[b, n], fun i => fns.exp (x.data i) / rowSum fns n x.data i⟩ := by
  simp [Tensor.softmax1, hx, rowSum, numel]

theorem Tensor_log_softmax1_two (fns : MathFns α) (x : Tensor α) (b n : Nat)
    (hx : x.sizes = [b, n]) :
    x.log_softmax1 fns =
      some ⟨[b, n], fun i => x.data i - fns.log (rowSum fns n x.data i)⟩ := by
  simp [Tensor.log_softmax1, hx, rowSum, numel]

/-- What a successful forward pass of the policy head returns: the sizes of the
convolution's result `z`, and the entries of the (log-)softmax of `z` over all
dimensions but the first. -/
theorem PolicyHeadImpl_forward_spec (fns : MathFns α) (m : PolicyHeadImpl α) (x y : Tensor α)
    (h : m.forward fns x = some y) :
    ∃ z b k w, m.conv.forward x = some z ∧
      x.sizes = [b, m.conv.in_channels, k, w] ∧
      z.sizes = [b, m.conv.out_channels, k + 2 * m.conv.padding - m.conv.kernel_size + 1,
        w + 2 * m.conv.padding - m.conv.kernel_size + 1] ∧
      y.sizes = z.sizes ∧
      y.data = fun i =>
        if m.training = true then
          z.data i - fns.log (rowSum fns (numel z.sizes.tail) z.data i)
        else fns.exp (z.data i) / rowSum fns (numel z.sizes.tail) z.data i := by
  simp only [PolicyHeadImpl.forward, Option.bind_eq_bind, Option.bind_eq_some] at h
  obtain ⟨z, hz, h⟩ := h
  obtain ⟨b, k, w, hx, -, -, -, -, hzs⟩ := (Conv2d_forward_eq_some_iff _ _ _).1 hz
  refine ⟨z, b, k, w, hz, hx, by rw [hzs], ?_⟩
  subst hzs
  rw [Tensor_flatten1_four _ _ _ _ _ rfl] at h
  by_cases ht : m.training = true
  · simp only [ht, if_true, Option.some_bind] at h
    rw [Tensor_log_softmax1_two fns _ _ _ rfl] at h
    simp only [Option.some_bind] at h
    rw [Tensor_view_flat] at h
    cases h
    refine ⟨rfl, ?_⟩
    funext i
    simp [ht]
  · simp only [ht, Option.some_bind] at h
    simp only [Bool.false_eq_true, if_false] at h
    rw [Tensor_softmax1_two fns _ _ _ rfl] at h
    simp only [Option.some_bind] at h
    rw [Tensor_view_flat] at h
    cases h
    refine ⟨rfl, ?_⟩
    funext i
    simp [ht]

end Heads

section ValueHead
variable [LinearOrderedField α]

theorem softmax_rescale (fns : MathFns α) (z : Tensor α) (b : Nat) (hz : z.sizes = [b, 2]) :
    ((z.softmax1 fns).bind fun s => pure s.mul2sub1) =
      some ⟨[b, 2], fun i => fns.exp (z.data i) / rowSum fns 2 z.data i * 2 - 1⟩ := by
  rw [Tensor_softmax1_two fns z b 2 hz]
  rfl

/-- The forward pass of a constructed value head on a four-dimensional input
with the configured channel count: when it returns and what it returns. -/
theorem ValueHeadImpl_forward_new (fns : MathFns α) (C s : Nat) (θ : Params α) (mode : Bool)
    (x : Tensor α) (b k w : Nat) (hx : x.sizes = [b, C, k, w]) :
    ∃ t : Nat → α, ((ValueHeadImpl.new C s θ).train mode).forward fns x =
      if (1 ≤ b ∧ 1 ≤ C ∧ 1 ≤ k ∧ 1 ≤ w) ∧ (mode = true → 1 < b * k * w) ∧ k * w = s then
        some ⟨[b, 2], fun i => fns.exp (t i) / rowSum fns 2 t i * 2 - 1⟩
      else none := by
  by_cases hne : 1 ≤ b ∧ 1 ≤ C ∧ 1 ≤ k ∧ 1 ≤ w
  · obtain ⟨hb, hC, hk, hw⟩ := hne
    have h1 := Conv2d_forward_same (Conv2d.new C 1 1 0 (θ [0])) x b k w hx rfl hb hC
      (Nat.le_refl 1) hk hw
    by_cases hm : mode = true → 1 < b * k * w
    · have h2 := BatchNorm_forward_some ((BatchNorm.new 1 (fun t => θ [1, t.toNat])).train mode)
        ⟨[b, 1, k, w], (θ [0]) x.sizes x.data⟩ b k w rfl
        (by
          cases mode
          · left; rfl
          · right; exact ⟨Nat.one_pos, hm rfl⟩)
      by_cases hs : k * w = s
      · refine Exists.intro ?t ?h
        case h =>
        rw [if_pos ⟨⟨hb, hC, hk, hw⟩, hm, hs⟩]
        simp only [ValueHeadImpl.forward, ValueHeadImpl.new, ValueHeadImpl.train,
          Option.bind_eq_bind]
        erw [h1]
        simp only [Option.some_bind]
        erw [h2]
        simp only [Option.some_bind]
        erw [Tensor_flatten1_four _ b 1 k w rfl]
        simp only [Option.some_bind]
        erw [Linear_forward_two _ _ b (numel [1, k, w]) rfl]
        rw [if_pos (by simp [numel, Linear.new, hs])]
        simp only [Option.some_bind]
        erw [Linear_forward_two _ _ b 64 rfl]
        simp only [Linear.new, if_true]
        simp only [Option.some_bind]
        refine softmax_rescale fns _ b ?_
        rfl
      · refine ⟨fun _ => 0, ?_⟩
        rw [if_neg (fun h => hs h.2.2)]
        simp only [ValueHeadImpl.forward, ValueHeadImpl.new, ValueHeadImpl.train,
          Option.bind_eq_bind]
        erw [h1]
        simp only [Option.some_bind]
        erw [h2]
        simp only [Option.some_bind]
        erw [Tensor_flatten1_four _ b 1 k w rfl]
        simp only [Option.some_bind]
        erw [Linear_forward_two _ _ b (numel [1, k, w]) rfl]
        rw [if_neg (by simp [numel, Linear.new, hs])]
        rfl
    · refine ⟨fun _ => 0, ?_⟩
      rw [if_neg (fun h => hm h.2.1)]
      have ht : mode = true := by
        by_contra hc
        exact hm (fun h => absurd h hc)
      have hn : b * k * w ≤ 1 := by
        by_contra hc
        exact hm (fun _ => by omega)
      have h2 := BatchNorm_forward_training_none
        ((BatchNorm.new 1 (fun t => θ [1, t.toNat])).train mode)
        ⟨[b, 1, k, w], (θ [0]) x.sizes x.data⟩ b 1 k w rfl ht hn
      simp only [ValueHeadImpl.forward, ValueHeadImpl.new, ValueHeadImpl.train,
        Option.bind_eq_bind]
      erw [h1]
      simp only [Option.some_bind]
      erw [h2]
      rfl
  · refine ⟨fun _ => 0, ?_⟩
    rw [if_neg (fun h => hne h.1)]
    have h1 : (Conv2d.new C 1 1 0 (θ [0])).forward x = none := by
      simp only [Conv2d.forward, hx, Conv2d.new]
      rw [if_neg]
      rintro ⟨-, h2, -⟩
      exact hne h2
    simp only [ValueHeadImpl.forward, ValueHeadImpl.new, ValueHeadImpl.train,
      Option.bind_eq_bind]
    erw [h1]
    rfl

end ValueHead

/-! ## The constructor of the network -/

theorem vectorAt_nat (Cs : List Nat) (i : Nat) (h : i < Cs.length) :
    vectorAt Cs (i : Int) = some (Cs.getD i 0) := by
  simp [vectorAt, List.getD, List.getElem?_eq_getElem h]

theorem vectorAt_nat_succ (Cs : List Nat) (i : Nat) (h : i + 1 < Cs.length) :
    vectorAt Cs ((i : Int) + 1) = some (Cs.getD (i + 1) 0) := by
  have := vectorAt_nat Cs (i + 1) h
  simpa using this

/-- The blocks built by the body of the constructor. -/
theorem PVNetworkImpl_makeRBlocks_eq (Cs : List Nat) (K P : Nat) (θ : Params α) :
    ∀ n i, i + n < Cs.length →
      PVNetworkImpl.makeRBlocks Cs K P θ i n =
        some ((List.range n).map fun j =>
          ResBlockImpl.new (Cs.getD (i + j) 0) (Cs.getD (i + j + 1) 0) K P (θ.sub (3 + (i + j)))) := by
  intro n
  induction n with
  | zero => intro i _; rfl
  | succ n ih =>
    intro i h
    have h1 := vectorAt_nat Cs i (by omega)
    have h2 := vectorAt_nat_succ Cs i (by omega)
    have h3 := ih (i + 1) (by omega)
    simp only [PVNetworkImpl.makeRBlocks, h1, h2, h3, Option.bind_eq_bind, Option.some_bind,
      Option.pure_def, List.range_succ_eq_map, List.map_cons, List.map_map]
    congr 2
    apply List.map_congr_left
    intro j _
    simp only [Function.comp, Nat.succ_eq_add_one]
    have e : i + 1 + j = i + (j + 1) := by omega
    rw [e]

/-- The constructor returns a network for a schedule of at least two widths and a
board size whose square fits into an `int`, and then the network is the following
one. -/
theorem PVNetworkImpl_new_eq (bs : Nat) (Cs : List Nat) (inp out : Nat) (tr : Bool)
    (K P : Nat) (θ : Params α) (h : 2 ≤ Cs.length) (hfit : bs * bs < 2 ^ 31) :
    PVNetworkImpl.new bs Cs inp out tr K P θ = some
      { num_res := (Cs.length : Int) - 1
        CBlock := ConvBlockImpl.new inp (Cs.getD 0 0) K P (θ.sub 0)
        RBlocks := (List.range (Cs.length - 1)).map fun j =>
          ResBlockImpl.new (Cs.getD j 0) (Cs.getD (j + 1) 0) K P (θ.sub (3 + j))
        PHead := PolicyHeadImpl.new (Cs.getD (Cs.length - 2) 0) out tr (θ.sub 1)
        VHead := ValueHeadImpl.new (Cs.getD (Cs.length - 2) 0) (bs * bs) (θ.sub 2) } := by
  have h0 : vectorAt Cs 0 = some (Cs.getD 0 0) := by
    have := vectorAt_nat Cs 0 (by omega)
    simpa using this
  have e1 : PVNetworkImpl.numRes Cs - 1 = ((Cs.length - 2 : Nat) : Int) := by
    unfold PVNetworkImpl.numRes; omega
  have h1 : vectorAt Cs (PVNetworkImpl.numRes Cs - 1) = some (Cs.getD (Cs.length - 2) 0) := by
    rw [e1]; exact vectorAt_nat Cs _ (by omega)
  have e2 : (PVNetworkImpl.numRes Cs).toNat = Cs.length - 1 := by
    unfold PVNetworkImpl.numRes; omega
  have h2 := PVNetworkImpl_makeRBlocks_eq Cs K P θ (Cs.length - 1) 0 (by omega)
  have h3 : intMul bs bs = some (bs * bs) := by
    unfold intMul
    rw [if_pos hfit]
  simp only [PVNetworkImpl.new, h0, h1, e2, h2, h3, Option.bind_eq_bind, Option.some_bind,
    Option.pure_def, Nat.zero_add]
  rfl

theorem PVNetworkImpl_new_none (bs : Nat) (Cs : List Nat) (inp out : Nat) (tr : Bool)
    (K P : Nat) (θ : Params α) (h : Cs.length < 2) :
    PVNetworkImpl.new bs Cs inp out tr K P θ = none := by
  match Cs, h with
  | [], _ => rfl
  | [a], _ => rfl

/-- The constructor returns no network when `board_size * board_size` overflows. -/
theorem PVNetworkImpl_new_overflow (bs : Nat) (Cs : List Nat) (inp out : Nat) (tr : Bool)
    (K P : Nat) (θ : Params α) (h : ¬ bs * bs < 2 ^ 31) :
    PVNetworkImpl.new bs Cs inp out tr K P θ = none := by
  have h3 : intMul bs bs = none := by
    unfold intMul
    rw [if_neg h]
  cases h0 : vectorAt Cs 0 <;>
    cases h1 : vectorAt Cs (PVNetworkImpl.numRes Cs - 1) <;>
    simp [PVNetworkImpl.new, h0, h1, h3]

/-- The constructor returns a network exactly for a schedule of at least two
widths and a board size whose square fits into an `int`. -/
theorem PVNetworkImpl_new_isSome_iff (bs : Nat) (Cs : List Nat) (inp out : Nat) (tr : Bool)
    (K P : Nat) (θ : Params α) :
    (PVNetworkImpl.new bs Cs inp out tr K P θ).isSome = true ↔
      (2 ≤ Cs.length ∧ bs * bs < 2 ^ 31) := by
  constructor
  · intro h
    refine ⟨?_, ?_⟩
    · by_contra hc
      rw [PVNetworkImpl_new_none bs Cs inp out tr K P θ (by omega)] at h
      cases h
    · by_contra hc
      rw [PVNetworkImpl_new_overflow bs Cs inp out tr K P θ hc] at h
      cases h
  · rintro ⟨hlen, hfit⟩
    rw [PVNetworkImpl_new_eq bs Cs inp out tr K P θ hlen hfit]
    rfl

/-! ## The forward pass of the network -/

section Network
variable [LinearOrderedField α]

/-- A constructed ResBlock with equal widths and kernel size `2P + 1`, in either
mode, keeps the sizes of a non-empty feature map. -/
theorem ResBlockImpl_forward_new_same (C K P : Nat) (θ : Params α) (mode : Bool)
    (x : Tensor α) (b h w : Nat) (hK : K = 2 * P + 1) (hx : x.sizes = [b, C, h, w])
    (hb : 1 ≤ b) (hC : 1 ≤ C) (hh : 1 ≤ h) (hw : 1 ≤ w)
    (hm : mode = false ∨ 1 < b * h * w) :
    ∃ y, ((ResBlockImpl.new C C K P θ).train mode).forward x = some y ∧
      y.sizes = [b, C, h, w] :=
  ResBlockImpl_forward_same ((ResBlockImpl.new C C K P θ).train mode) x C b h w
    rfl rfl rfl rfl rfl rfl hK hK hx hb hC hh hw hm hm

/-- A constructed ConvBlock with kernel size `2P + 1`, in either mode, keeps the
spatial sizes of a non-empty feature map. -/
theorem ConvBlockImpl_forward_new_same (inp out K P : Nat) (θ : Params α) (mode : Bool)
    (x : Tensor α) (b h w : Nat) (hK : K = 2 * P + 1) (hx : x.sizes = [b, inp, h, w])
    (hb : 1 ≤ b) (hi : 1 ≤ inp) (ho : 1 ≤ out) (hh : 1 ≤ h) (hw : 1 ≤ w)
    (hm : mode = false ∨ 1 < b * h * w) :
    ∃ y, ((ConvBlockImpl.new inp out K P θ).train mode).forward x = some y ∧
      y.sizes = [b, out, h, w] :=
  ConvBlockImpl_forward_same ((ConvBlockImpl.new inp out K P θ).train mode) x b h w
    rfl hK hx hb hi ho hh hw hm

end Network

/-! ## Arithmetic of the two-way value output -/

theorem rescale_pair {β : Type} [LinearOrderedField β] (e0 e1 : β) (h0 : 0 < e0) (h1 : 0 < e1) :
    (e0 / (e0 + e1) * 2 - 1) + (e1 / (e0 + e1) * 2 - 1) = 0 ∧
      -1 ≤ e0 / (e0 + e1) * 2 - 1 ∧ e0 / (e0 + e1) * 2 - 1 ≤ 1 := by
  have hs : 0 < e0 + e1 := add_pos h0 h1
  have hne : e0 + e1 ≠ 0 := ne_of_gt hs
  have hq0 : 0 ≤ e0 / (e0 + e1) := le_of_lt (div_pos h0 hs)
  have hq1 : e0 / (e0 + e1) ≤ 1 := (div_le_one hs).2 (by linarith)
  refine ⟨?_, by linarith, by linarith⟩
  field_simp
  ring

theorem rowSum_two {β : Type} [LinearOrderedField β] (fns : MathFns β) (t : Nat → β)
    (b j : Nat) (hj : j < 2) :
    rowSum fns 2 t (b * 2 + j) = fns.exp (t (b * 2)) + fns.exp (t (b * 2 + 1)) := by
  rw [rowSum_row fns 2 t b j hj]
  simp [Finset.sum_range_succ]

/-- Rows of the value output, for any positive exponential. -/
theorem value_rows {β : Type} [LinearOrderedField β] (fns : MathFns β)
    (hpos : ∀ t, 0 < fns.exp t) (C s : Nat) (θ : Params β) (mode : Bool) (x y : Tensor β)
    (h : ((ValueHeadImpl.new C s θ).train mode).forward fns x = some y) :
    ∃ B H W, x.sizes = [B, C, H, W] ∧ y.sizes = [B, 2] ∧
      ∀ b, b < B →
        y.data (b * 2) + y.data (b * 2 + 1) = 0 ∧
        (-1 ≤ y.data (b * 2) ∧ y.data (b * 2) ≤ 1) ∧
        (-1 ≤ y.data (b * 2 + 1) ∧ y.data (b * 2 + 1) ≤ 1) := by
  have hx : ∃ B H W, x.sizes = [B, C, H, W] := by
    simp only [ValueHeadImpl.forward, Option.bind_eq_bind, Option.bind_eq_some] at h
    obtain ⟨a, ha, -⟩ := h
    obtain ⟨b, k, w, hx, -⟩ := (Conv2d_forward_eq_some_iff _ _ _).1 ha
    exact ⟨b, k, w, hx⟩
  obtain ⟨B, H, W, hx⟩ := hx
  obtain ⟨t, ht⟩ := ValueHeadImpl_forward_new fns C s θ mode x B H W hx
  rw [ht] at h
  split_ifs at h
  cases h
  refine ⟨B, H, W, hx, rfl, ?_⟩
  intro b _
  have r0 := rowSum_two fns t b 0 (by decide)
  have r1 := rowSum_two fns t b 1 (by decide)
  rw [Nat.add_zero] at r0
  have p0 := rescale_pair (fns.exp (t (b * 2))) (fns.exp (t (b * 2 + 1))) (hpos _) (hpos _)
  have p1 := rescale_pair (fns.exp (t (b * 2 + 1))) (fns.exp (t (b * 2))) (hpos _) (hpos _)
  rw [add_comm (fns.exp (t (b * 2 + 1)))] at p1
  simp only [r0, r1]
  exact ⟨p0.1, p0.2, p1.2⟩

/-! ## Rows of the policy output -/

/-- What a constructed policy head returns on an input of sizes `[B, C, H, W]`. -/
theorem PolicyHeadImpl_forward_new_spec {β : Type} [LinearOrderedField β] (fns : MathFns β)
    (C out : Nat) (tr : Bool) (θ : Params β) (x y : Tensor β) (B H W : Nat)
    (hx : x.sizes = [B, C, H, W])
    (h : (PolicyHeadImpl.new C out tr θ).forward fns x = some y) :
    ∃ z, (PolicyHeadImpl.new C out tr θ).conv.forward x = some z ∧
      z.sizes = [B, out, H, W] ∧ y.sizes = [B, out, H, W] ∧
      y.data = fun i =>
        if tr = true then z.data i - fns.log (rowSum fns (out * H * W) z.data i)
        else fns.exp (z.data i) / rowSum fns (out * H * W) z.data i := by
  obtain ⟨z, b, k, w, hz, hx2, hzs, hys, hyd⟩ := PolicyHeadImpl_forward_spec fns _ x y h
  obtain ⟨b2, k2, w2, hx3, ⟨-, -, hk, hw⟩, -⟩ := (Conv2d_forward_eq_some_iff _ _ _).1 hz
  rw [hx] at hx2 hx3
  simp only [PolicyHeadImpl.new, Conv2d.new, List.cons.injEq, and_true, true_and] at hx2 hx3
  obtain ⟨rfl, rfl, rfl⟩ := hx2
  obtain ⟨-, rfl, rfl⟩ := hx3
  have e1 : H + 2 * 0 - 1 + 1 = H := by omega
  have e2 : W + 2 * 0 - 1 + 1 = W := by omega
  simp only [PolicyHeadImpl.new, Conv2d.new, e1, e2] at hzs
  have hn : numel z.sizes.tail = out * H * W := by
    rw [hzs]; simp [numel, Nat.mul_assoc]
  refine ⟨z, hz, hzs, by rw [hys, hzs], ?_⟩
  rw [hyd, hn]
  rfl

/-- In inference mode each row of the policy output sums to one and no entry
is negative, for any positive exponential. -/
theorem policy_rows_softmax {β : Type} [LinearOrderedField β] (fns : MathFns β)
    (hpos : ∀ t, 0 < fns.exp t) (C out : Nat) (θ : Params β) (x y : Tensor β) (B H W : Nat)
    (hx : x.sizes = [B, C, H, W]) (hN : 0 < out * H * W)
    (h : (PolicyHeadImpl.new C out false θ).forward fns x = some y) :
    y.sizes = [B, out, H, W] ∧
      (∃ z, (PolicyHeadImpl.new C out false θ).conv.forward x = some z ∧ y.sizes = z.sizes) ∧
      (∀ b, b < B → ∑ j ∈ Finset.range (out * H * W), y.data (b * (out * H * W) + j) = 1) ∧
      ∀ i, 0 ≤ y.data i := by
  obtain ⟨z, hz, hzs, hys, hyd⟩ := PolicyHeadImpl_forward_new_spec fns C out false θ x y B H W hx h
  refine ⟨hys, ⟨z, hz, by rw [hys, hzs]⟩, ?_, ?_⟩
  · intro b _
    rw [hyd]
    simp only [Bool.false_eq_true, if_false]
    exact softmax_row_sum fns hpos (out * H * W) z.data b hN
  · intro i
    rw [hyd]
    simp only [Bool.false_eq_true, if_false]
    exact div_nonneg (le_of_lt (hpos _)) (rowSum_nonneg fns hpos _ _ _)

/-- In training mode the exponentials of each row of the policy output sum to
one (real exponential and logarithm). -/
theorem policy_rows_log_softmax (C out : Nat) (θ : Params ℝ) (x y : Tensor ℝ) (B H W : Nat)
    (hx : x.sizes = [B, C, H, W]) (hN : 0 < out * H * W)
    (h : (PolicyHeadImpl.new C out true θ).forward ⟨Real.exp, Real.log⟩ x = some y) :
    y.sizes = [B, out, H, W] ∧
      ∀ b, b < B →
        ∑ j ∈ Finset.range (out * H * W), Real.exp (y.data (b * (out * H * W) + j)) = 1 := by
  obtain ⟨z, hz, hzs, hys, hyd⟩ :=
    PolicyHeadImpl_forward_new_spec ⟨Real.exp, Real.log⟩ C out true θ x y B H W hx h
  refine ⟨hys, ?_⟩
  intro b _
  rw [hyd]
  simp only [if_true]
  have hpos : ∀ t, 0 < (MathFns.mk Real.exp Real.log).exp t := fun t => Real.exp_pos t
  have key := softmax_row_sum ⟨Real.exp, Real.log⟩ hpos (out * H * W) z.data b hN
  rw [← key]
  apply Finset.sum_congr rfl
  intro j _
  rw [Real.exp_sub, Real.exp_log (rowSum_pos ⟨Real.exp, Real.log⟩ hpos _ _ _ hN)]

/-! ## Shapes through the whole network -/

/-- Switching a constructed network to training mode changes nothing: the
constructor leaves every module in training mode. -/
theorem PVNetworkImpl_train_true_new {β : Type} (bs : Nat) (Cs : List Nat) (inp out : Nat)
    (tr : Bool) (K P : Nat) (θ : Params β) (net : PVNetworkImpl β)
    (h : PVNetworkImpl.new bs Cs inp out tr K P θ = some net) : net.train true = net := by
  obtain ⟨hlen, hfit⟩ :=
    (PVNetworkImpl_new_isSome_iff bs Cs inp out tr K P θ).1 (by rw [h]; rfl)
  rw [PVNetworkImpl_new_eq bs Cs inp out tr K P θ hlen hfit] at h
  cases h
  simp only [PVNetworkImpl.train, List.map_map]
  congr 1

/-! ## Properties of the specification -/

/-- C2: whenever the forward pass of a constructed value head returns, in either
mode and for all layer parameters, the input has four dimensions, the output has
sizes `(B, 2)`, and in each batch row the two components sum to 0 and each lies
in `[-1, 1]` (real exponential). -/
theorem C2_value_rows (C size_2 : Nat) (θ : Params ℝ) (mode : Bool) (x y : Tensor ℝ)
    (h : ((ValueHeadImpl.new C size_2 θ).train mode).forward ⟨Real.exp, Real.log⟩ x = some y) :
    ∃ B H W, x.sizes = [B, C, H, W] ∧ y.sizes = [B, 2] ∧
      ∀ b, b < B →
        y.data (b * 2) + y.data (b * 2 + 1) = 0 ∧
        (-1 ≤ y.data (b * 2) ∧ y.data (b * 2) ≤ 1) ∧
        (-1 ≤ y.data (b * 2 + 1) ∧ y.data (b * 2 + 1) ≤ 1) :=
  value_rows ⟨Real.exp, Real.log⟩ (fun t => Real.exp_pos t) C size_2 θ mode x y h

theorem valueHead_zero_eval :
    ((ValueHeadImpl.new 3 4 zeroParamsR).train true).forward ⟨Real.exp, Real.log⟩
      (zerosR [2, 3, 2, 2]) = some (zerosR [2, 2]) := by
  have h : ((ValueHeadImpl.new 3 4 zeroParamsR).train true).forward ⟨Real.exp, Real.log⟩
      (zerosR [2, 3, 2, 2]) =
      some ⟨[2, 2], fun _ => Real.exp 0 / (∑ _k ∈ Finset.range 2, Real.exp 0) * 2 - 1⟩ := rfl
  rw [h]
  simp [zerosR, Finset.sum_range_succ]

/-- C2, a concrete instance: a value head with 3 input channels on a batch of two 2x2 maps,
all parameters acting as zero: the output is the zero tensor of sizes `(2, 2)`. -/
theorem C2_value_rows_witness :
    ((ValueHeadImpl.new 3 4 zeroParamsR).train true).forward ⟨Real.exp, Real.log⟩
        (zerosR [2, 3, 2, 2]) = some (zerosR [2, 2]) ∧
      ∃ B H W, (zerosR [2, 3, 2, 2]).sizes = [B, 3, H, W] ∧ (zerosR [2, 2]).sizes = [B, 2] ∧
        ∀ b, b < B →
          (zerosR [2, 2]).data (b * 2) + (zerosR [2, 2]).data (b * 2 + 1) = 0 ∧
          (-1 ≤ (zerosR [2, 2]).data (b * 2) ∧ (zerosR [2, 2]).data (b * 2) ≤ 1) ∧
          (-1 ≤ (zerosR [2, 2]).data (b * 2 + 1) ∧ (zerosR [2, 2]).data (b * 2 + 1) ≤ 1) :=
  ⟨valueHead_zero_eval,
    C2_value_rows 3 4 zeroParamsR true (zerosR [2, 3, 2, 2]) (zerosR [2, 2]) valueHead_zero_eval⟩

/-- C3: for a policy head constructed with `train = false`, whenever `forward`
returns on an input of sizes `(B, C, H, W)` with `out * H * W > 0`, the output has
the sizes `(B, out, H, W)` of the 1x1 convolution's result, each batch row sums
to 1 over its `out * H * W` entries, and every entry is non-negative (real
exponential). -/
theorem C3_policy_softmax (C out : Nat) (θ : Params ℝ) (x y : Tensor ℝ) (B H W : Nat)
    (hx : x.sizes = [B, C, H, W]) (hN : 0 < out * H * W)
    (h : (PolicyHeadImpl.new C out false θ).forward ⟨Real.exp, Real.log⟩ x = some y) :
    y.sizes = [B, out, H, W] ∧
      (∃ z, (PolicyHeadImpl.new C out false θ).conv.forward x = some z ∧ y.sizes = z.sizes) ∧
      (∀ b, b < B → ∑ j ∈ Finset.range (out * H * W), y.data (b * (out * H * W) + j) = 1) ∧
      ∀ i, 0 ≤ y.data i :=
  policy_rows_softmax ⟨Real.exp, Real.log⟩ (fun t => Real.exp_pos t) C out θ x y B H W hx hN h

theorem policyHead_softmax_eval :
    (PolicyHeadImpl.new 3 2 false zeroParamsR).forward ⟨Real.exp, Real.log⟩
      (zerosR [2, 3, 1, 2]) = some (constR [2, 2, 1, 2] (1 / 4)) := by
  have h : (PolicyHeadImpl.new 3 2 false zeroParamsR).forward ⟨Real.exp, Real.log⟩
      (zerosR [2, 3, 1, 2]) =
      some ⟨[2, 2, 1, 2], fun _ => Real.exp 0 / ∑ _k ∈ Finset.range 4, Real.exp 0⟩ := rfl
  rw [h]
  simp [constR]

/-- C3, a concrete instance: two move planes on a batch of two 1x2 maps, all parameters
acting as zero: every entry is 1/4 and each row of 4 entries sums to 1. -/
theorem C3_policy_softmax_witness :
    (0 < 2 * 1 * 2) ∧
      (PolicyHeadImpl.new 3 2 false zeroParamsR).forward ⟨Real.exp, Real.log⟩
        (zerosR [2, 3, 1, 2]) = some (constR [2, 2, 1, 2] (1 / 4)) ∧
      (constR [2, 2, 1, 2] (1 / 4)).sizes = [2, 2, 1, 2] ∧
      (∃ z, (PolicyHeadImpl.new 3 2 false zeroParamsR).conv.forward (zerosR [2, 3, 1, 2]) = some z ∧
        (constR [2, 2, 1, 2] (1 / 4)).sizes = z.sizes) ∧
      (∀ b, b < 2 → ∑ j ∈ Finset.range (2 * 1 * 2),
        (constR [2, 2, 1, 2] (1 / 4)).data (b * (2 * 1 * 2) + j) = 1) ∧
      ∀ i, 0 ≤ (constR [2, 2, 1, 2] (1 / 4)).data i :=
  ⟨by decide, policyHead_softmax_eval,
    C3_policy_softmax 3 2 zeroParamsR (zerosR [2, 3, 1, 2]) (constR [2, 2, 1, 2] (1 / 4)) 2 1 2
      rfl (by decide) policyHead_softmax_eval⟩

/-- C4: for a policy head constructed with `train = true`, whenever `forward`
returns on an input of sizes `(B, C, H, W)` with `out * H * W > 0`, the
exponentials of each batch row of the output sum to 1 over its `out * H * W`
entries (real exponential and logarithm); the flag of the module is the
constructor's argument, before and after every call of `forward`. -/
theorem C4_policy_log_softmax (C out : Nat) (θ : Params ℝ) (x y : Tensor ℝ) (B H W : Nat)
    (hx : x.sizes = [B, C, H, W]) (hN : 0 < out * H * W)
    (h : (PolicyHeadImpl.new C out true θ).forward ⟨Real.exp, Real.log⟩ x = some y) :
    (y.sizes = [B, out, H, W] ∧
      ∀ b, b < B →
        ∑ j ∈ Finset.range (out * H * W), Real.exp (y.data (b * (out * H * W) + j)) = 1) ∧
      (∀ (train : Bool) (u : Tensor ℝ),
        (PolicyHeadImpl.new C out train θ).training = train ∧
        ((PolicyHeadImpl.new C out train θ).call ⟨Real.exp, Real.log⟩ u).1.training = train) :=
  ⟨policy_rows_log_softmax C out θ x y B H W hx hN h, fun _ _ => ⟨rfl, rfl⟩⟩

theorem policyHead_log_softmax_eval :
    (PolicyHeadImpl.new 3 2 true zeroParamsR).forward ⟨Real.exp, Real.log⟩
      (zerosR [2, 3, 1, 2]) = some (constR [2, 2, 1, 2] (-Real.log 4)) := by
  have h : (PolicyHeadImpl.new 3 2 true zeroParamsR).forward ⟨Real.exp, Real.log⟩
      (zerosR [2, 3, 1, 2]) =
      some ⟨[2, 2, 1, 2], fun _ => 0 - Real.log (∑ _k ∈ Finset.range 4, Real.exp 0)⟩ := rfl
  rw [h]
  simp [constR]

/-- C4, a concrete instance: two move planes on a batch of two 1x2 maps in training mode,
all parameters acting as zero: every entry is `-log 4`. -/
theorem C4_policy_log_softmax_witness :
    (0 < 2 * 1 * 2) ∧
      (PolicyHeadImpl.new 3 2 true zeroParamsR).forward ⟨Real.exp, Real.log⟩
        (zerosR [2, 3, 1, 2]) = some (constR [2, 2, 1, 2] (-Real.log 4)) ∧
      ((constR [2, 2, 1, 2] (-Real.log 4)).sizes = [2, 2, 1, 2] ∧
        ∀ b, b < 2 → ∑ j ∈ Finset.range (2 * 1 * 2),
          Real.exp ((constR [2, 2, 1, 2] (-Real.log 4)).data (b * (2 * 1 * 2) + j)) = 1) :=
  ⟨by decide, policyHead_log_softmax_eval,
    (C4_policy_log_softmax 3 2 zeroParamsR (zerosR [2, 3, 1, 2])
      (constR [2, 2, 1, 2] (-Real.log 4)) 2 1 2 rfl (by decide)
      policyHead_log_softmax_eval).1⟩

/-- C7, a counterexample to the statement as written: equal widths alone do not make a ResBlock
shape-preserving.  With `K = 3`, `P = 0` an input of sizes `(1, 1, 8, 8)` gives no
result (the add of `(1, 1, 4, 4)` and `(1, 1, 8, 8)` is rejected); with `K = 1`,
`P = 1` an input of sizes `(1, 1, 1, 1)` comes back with sizes `(1, 1, 5, 5)` (each
convolution adds 2 to the spatial sizes and the add broadcasts the 1x1 input).
With `K = 3`, `P = 1`: the empty map `(1, 1, 0, 0)` gives no result (the kernel
does not fit), and a freshly constructed block gives none on `(1, 1, 1, 1)`
(batch normalisation in training mode sees one value per channel). -/
theorem C7_counterexample :
    ((ResBlockImpl.new 1 1 3 0 zeroParamsR).forward (zerosR [1, 1, 8, 8])).isSome = false ∧
      ((ResBlockImpl.new 1 1 1 1 zeroParamsR).forward (zerosR [1, 1, 1, 1])).map Tensor.sizes =
        some [1, 1, 5, 5] ∧
      (((ResBlockImpl.new 1 1 3 1 zeroParamsR).train false).forward
        (zerosR [1, 1, 0, 0])).isSome = false ∧
      ((ResBlockImpl.new 1 1 3 1 zeroParamsR).forward (zerosR [1, 1, 1, 1])).isSome = false := by
  decide

/-- C7, as it holds of the code: a ResBlock constructed with in-width equal to out-width and
with `K = 2P + 1` is shape-preserving: on every non-empty input of sizes
`(B, C, H, W)` (all four at least 1) such that the block is in evaluation mode or
`B * H * W > 1`, `forward` returns a tensor with the sizes of the input. -/
theorem C7_resblock_shape_preserving {β : Type} [LinearOrderedField β] (C K P : Nat)
    (θ : Params β) (mode : Bool) (x : Tensor β) (B H W : Nat)
    (hK : K = 2 * P + 1) (hx : x.sizes = [B, C, H, W])
    (hB : 1 ≤ B) (hC : 1 ≤ C) (hH : 1 ≤ H) (hW : 1 ≤ W)
    (hmode : mode = false ∨ 1 < B * H * W) :
    ∃ y, ((ResBlockImpl.new C C K P θ).train mode).forward x = some y ∧ y.sizes = x.sizes := by
  obtain ⟨y, hy, hys⟩ :=
    ResBlockImpl_forward_new_same C K P θ mode x B H W hK hx hB hC hH hW hmode
  exact ⟨y, hy, by rw [hys, hx]⟩

/-- C7, a concrete instance: width 8, `K = 3`, `P = 1`, a 3x3 map, freshly constructed block. -/
theorem C7_resblock_shape_preserving_witness :
    (3 = 2 * 1 + 1) ∧ (1 < 1 * 3 * 3) ∧
      ∃ y, ((ResBlockImpl.new 8 8 3 1 zeroParamsR).train true).forward (zerosR [1, 8, 3, 3]) =
        some y ∧ y.sizes = (zerosR [1, 8, 3, 3]).sizes :=
  ⟨by decide, by decide,
    C7_resblock_shape_preserving 8 3 1 zeroParamsR true (zerosR [1, 8, 3, 3]) 1 3 3
      (by decide) rfl (by decide) (by decide) (by decide) (by decide) (Or.inr (by decide))⟩

/-- C8, a counterexample to the statement as written: a ResBlock with `in = 1`, `out = 2`, `K = 3`, `P = 1`
returns a result on an input of sizes `(1, 1, 3, 3)`: the add of `(1, 2, 3, 3)` and
`(1, 1, 3, 3)` broadcasts the single input channel.  Likewise with `in = 2`,
`out = 1` on an input of sizes `(1, 2, 3, 3)`: the add of `(1, 1, 3, 3)` and
`(1, 2, 3, 3)` broadcasts the single output channel. -/
theorem C8_counterexample :
    ((ResBlockImpl.new 1 2 3 1 zeroParamsR).forward (zerosR [1, 1, 3, 3])).map Tensor.sizes =
        some [1, 2, 3, 3] ∧
      ((ResBlockImpl.new 2 1 3 1 zeroParamsR).forward (zerosR [1, 2, 3, 3])).map Tensor.sizes =
        some [1, 2, 3, 3] := by
  decide

/-- C8, as it holds of the code: for a ResBlock constructed with `in != out`, neither of them
1, `forward` returns no result on any input, whatever `K` and `P` are: the add of
a `(B, out, H, W)` tensor and a `(B, in, H, W)` tensor is rejected.  The
constructor accepts `in != out`: it builds `conv1` from `in` to `out` channels and
`conv2` from `out` to `out`. -/
theorem C8_resblock_width_mismatch {β : Type} [LinearOrderedField β] (inp out K P : Nat)
    (θ : Params β) (mode : Bool) (x : Tensor β)
    (hne : inp ≠ out) (hin : inp ≠ 1) (hout : out ≠ 1) :
    ((ResBlockImpl.new inp out K P θ).train mode).forward x = none ∧
      (∀ (a b : Tensor β) (B H W : Nat), a.sizes = [B, out, H, W] → b.sizes = [B, inp, H, W] →
        a.add b = none) ∧
      ((ResBlockImpl.new inp out K P θ).conv1.in_channels = inp ∧
        (ResBlockImpl.new inp out K P θ).conv1.out_channels = out ∧
        (ResBlockImpl.new inp out K P θ).conv2.in_channels = out ∧
        (ResBlockImpl.new inp out K P θ).conv2.out_channels = out) := by
  refine ⟨ResBlockImpl_forward_none _ x hne hin hout, ?_, rfl, rfl, rfl, rfl⟩
  intro a b B H W ha hb
  simp [Tensor.add, ha, hb, broadcastSizes_channels_none B out H W B inp H W (Ne.symm hne) hout hin]

/-- C8, a concrete instance: `in = 2`, `out = 3`, `K = 3`, `P = 1` on a 3x3 map. -/
theorem C8_resblock_width_mismatch_witness :
    ((ResBlockImpl.new 2 3 3 1 zeroParamsR).train true).forward (zerosR [1, 2, 3, 3]) = none :=
  (C8_resblock_width_mismatch 2 3 3 1 zeroParamsR true (zerosR [1, 2, 3, 3])
    (by decide) (by decide) (by decide)).1

/-- C9, a counterexample to the statement as written: `K = 2`, `P = 0` satisfies `P = (K - 1) / 2` in the
integer arithmetic of the source, and the ConvBlock maps an input of sizes
`(1, 1, 3, 3)` to sizes `(1, 1, 2, 2)`.  With `K = 3`, `P = 1 = (3 - 1) / 2`: the
empty map `(1, 1, 0, 0)` gives no result (the kernel does not fit), and a freshly
constructed block gives none on `(1, 1, 1, 1)` (batch normalisation in training
mode sees one value per channel). -/
theorem C9_counterexample :
    ((0 = (2 - 1) / 2) ∧
      ((ConvBlockImpl.new 1 1 2 0 zeroParamsR).forward (zerosR [1, 1, 3, 3])).map Tensor.sizes =
        some [1, 1, 2, 2]) ∧
      ((1 = (3 - 1) / 2) ∧
        (((ConvBlockImpl.new 1 1 3 1 zeroParamsR).train false).forward
          (zerosR [1, 1, 0, 0])).isSome = false ∧
        ((ConvBlockImpl.new 1 1 3 1 zeroParamsR).forward (zerosR [1, 1, 1, 1])).isSome = false) := by
  decide

/-- C9, as it holds of the code: for every ConvBlock constructed with `K = 2P + 1` and `out >= 1`
and every non-empty input of sizes `(batch, in, height, width)` (all four at least
1) such that the block is in evaluation mode or `batch * height * width > 1`,
`forward` returns a tensor of sizes `(batch, out, height, width)`; the output size
`height + 2P - K + 1` of the convolution is `height`, likewise for the width. -/
theorem C9_convblock_same_spatial {β : Type} [LinearOrderedField β] (inp out K P : Nat)
    (θ : Params β) (mode : Bool) (x : Tensor β) (batch height width : Nat)
    (hK : K = 2 * P + 1) (hx : x.sizes = [batch, inp, height, width])
    (hB : 1 ≤ batch) (hin : 1 ≤ inp) (hout : 1 ≤ out) (hH : 1 ≤ height) (hW : 1 ≤ width)
    (hmode : mode = false ∨ 1 < batch * height * width) :
    (∃ y, ((ConvBlockImpl.new inp out K P θ).train mode).forward x = some y ∧
      y.sizes = [batch, out, height, width]) ∧
      height + 2 * P - K + 1 = height ∧ width + 2 * P - K + 1 = width :=
  ⟨ConvBlockImpl_forward_new_same inp out K P θ mode x batch height width hK hx hB hin hout
      hH hW hmode,
    by omega, by omega⟩

/-- C9, a concrete instance: the stem of the 3x3 example, `ConvBlock(3, 8, 3, 1)`, freshly
constructed, on an input of sizes `(1, 3, 3, 3)`. -/
theorem C9_convblock_same_spatial_witness :
    (3 = 2 * 1 + 1) ∧
      (∃ y, ((ConvBlockImpl.new 3 8 3 1 zeroParamsR).train true).forward (zerosR [1, 3, 3, 3]) =
        some y ∧ y.sizes = [1, 8, 3, 3]) :=
  ⟨by decide,
    (C9_convblock_same_spatial 3 8 3 1 zeroParamsR true (zerosR [1, 3, 3, 3]) 1 3 3
      (by decide) rfl (by decide) (by decide) (by decide) (by decide) (by decide)
      (Or.inr (by decide))).1⟩

